import Mathlib

/-!
Shallow embedding of the caching subsystem of `my_python_project`
(`src/my_python_project/utils/cache.py`): the in-memory LRU cache with TTL
(`MemoryCache`), the file-backed cache (`FileCache`), the multi-level
composite cache (`MultiLevelCache`), the cache manager (`CacheManager`) and
the memoization decorator (`cache_result`).

Modelling conventions:
* Python values handled by the caches are modelled as `Option A`:
  `Option.none` is Python's `None`, `Option.some a` any other object.
  This keeps the source's conflation of "absent" and "stored None" visible.
* `time.time()` is modelled by an explicit `now : Int` argument; all the
  calls to `time.time()` inside one backend operation happen at essentially
  the same instant and are modelled with the same `now`.
* Python dicts are modelled by association lists in insertion order:
  assigning an existing key updates it in place, assigning a fresh key
  appends it, which matches CPython's ordered-dict semantics that the
  LRU eviction (`min` over `_access_times`) relies on.
* Fallible operations return `Except`; an operation that also mutates
  state before raising returns the mutated state alongside the result.
* The `threading.RLock` fields serialize the operations; the sequential
  semantics modelled here is the behaviour of each fully-locked operation.
-/

namespace PyCache

/-- Errors surfaced by the cache layer (`CacheSerializationError` and the
generic `CacheError` from `utils/exceptions.py`); the message payloads are
irrelevant to the claims and not modelled. -/
inductive CacheErr
  | serialization
  | generic
deriving DecidableEq, Repr

/-! ### Ordered association lists (Python `dict` in insertion order) -/

/-- Dict lookup `d.get(k)`, returning `none` when the key is missing. -/
def lookupKey (k : String) : List (String × β) → Option β
  | [] => none
  | (k', v) :: rest => if k' = k then some v else lookupKey k rest

/-- Dict assignment `d[k] = v`: update in place when `k` is present,
append otherwise (CPython keeps the position of an existing key). -/
def upsert (k : String) (v : β) : List (String × β) → List (String × β)
  | [] => [(k, v)]
  | (k', v') :: rest => if k' = k then (k, v) :: rest else (k', v') :: upsert k v rest

/-- Dict removal `del d[k]` / `d.pop(k, None)`: drop the key if present. -/
def eraseKey (k : String) : List (String × β) → List (String × β)
  | [] => []
  | (k', v) :: rest => if k' = k then eraseKey k rest else (k', v) :: eraseKey k rest

/-- Key list of a dict (`list(d.keys())`), in iteration order. -/
def keysOf : List (String × β) → List String
  | [] => []
  | (k, _) :: rest => k :: keysOf rest

/-- Erase a string from a plain key list; mirror of `eraseKey` on `keysOf`. -/
def eraseStr (k : String) : List String → List String
  | [] => []
  | k' :: rest => if k' = k then eraseStr k rest else k' :: eraseStr k rest

/-! ### `MemoryCache` (cache.py lines 67-205) -/

/-- Value of the `ttl` argument of `MemoryCache.set`: omitted (the private
`_UNSET` sentinel default), explicitly `None`, or an explicit number of
seconds. -/
inductive TtlArg
  | unset
  | noTtl
  | ttl (n : Int)
deriving DecidableEq, Repr

/-- One cache item: the dict
`{'value': ..., 'created_at': ..., 'expires_at': ...}` stored in
`MemoryCache._cache`. The `value` field is a Python object (`Option A`,
where `none` is Python `None`). -/
structure MemEntry (A : Type) where
  value : Option A
  created_at : Int
  expires_at : Option Int
deriving DecidableEq, Repr

/-- State of a `MemoryCache` instance: `max_size`, `default_ttl`, `_cache`
and `_access_times` (both insertion-ordered dicts). -/
structure MemState (A : Type) where
  max_size : Int
  default_ttl : Option Int
  cache : List (String × MemEntry A)
  access : List (String × Int)
deriving DecidableEq, Repr

/-- Constructor `MemoryCache.__init__(max_size, default_ttl)`: it stores
the parameters unvalidated (the source performs no check on `max_size`),
so the result is always `.ok`; the `Except` layer records that the
constructor has no failure path. -/
def memInit (A : Type) (max_size : Int) (default_ttl : Option Int) :
    Except CacheErr (MemState A) :=
  .ok { max_size := max_size, default_ttl := default_ttl, cache := [], access := [] }

/-- State a fresh `MemoryCache(max_size, default_ttl)` starts in. -/
def memEmpty (A : Type) (max_size : Int) (default_ttl : Option Int) : MemState A :=
  { max_size := max_size, default_ttl := default_ttl, cache := [], access := [] }

/-- Predicate `MemoryCache._is_expired`:
`expires_at is not None and time.time() > expires_at`. -/
def isExpired (e : MemEntry A) (now : Int) : Bool :=
  match e.expires_at with
  | none => false
  | some t => now > t

/-- Operation `MemoryCache.delete`: remove the key from `_cache` and
`_access_times`, returning whether it was present. -/
def memDelete (s : MemState A) (k : String) : Bool × MemState A :=
  if (lookupKey k s.cache).isSome then
    (true, { s with cache := eraseKey k s.cache, access := eraseKey k s.access })
  else
    (false, s)

/-- Expression `min(self._access_times.keys(), key=lambda k: ...)`:
the first key (in iteration order) with the smallest access time. -/
def lruMin (k : String) (t : Int) : List (String × Int) → String
  | [] => k
  | (k', t') :: rest => if t' < t then lruMin k' t' rest else lruMin k t rest

/-- Operation `MemoryCache._evict_lru`: no-op on an empty `_access_times`,
otherwise delete the least-recently-accessed key. -/
def evictLru (s : MemState A) : MemState A :=
  match s.access with
  | [] => s
  | (k0, t0) :: rest => (memDelete s (lruMin k0 t0 rest)).2

/-- TTL resolution of `MemoryCache.set`: the `_UNSET` sentinel means "use
`default_ttl` if configured", explicit `None` means "never expire", and an
explicit number means `now + ttl`. -/
def resolveTtl (ttl : TtlArg) (default_ttl : Option Int) (now : Int) : Option Int :=
  match ttl with
  | .unset => default_ttl.map (fun d => now + d)
  | .noTtl => none
  | .ttl n => some (now + n)

/-- Operation `MemoryCache.set(key, value, ttl=_UNSET)`: evict the LRU
entry when a new key would exceed `max_size`, resolve `expires_at`, then
store the entry and refresh the access time. -/
def memSet (s : MemState A) (k : String) (v : Option A) (ttl : TtlArg) (now : Int) :
    MemState A :=
  let s1 :=
    if s.max_size ≤ (s.cache.length : Int) ∧ (lookupKey k s.cache).isNone then
      evictLru s
    else s
  { s1 with
    cache := upsert k
      { value := v, created_at := now, expires_at := resolveTtl ttl s.default_ttl now }
      s1.cache,
    access := upsert k now s1.access }

/-- Operation `MemoryCache.get`: absent yields `None`; an expired entry is
deleted and yields `None`; otherwise the access time is refreshed and the
stored value returned (itself `None` when `None` was stored). -/
def memGet (s : MemState A) (k : String) (now : Int) : Option A × MemState A :=
  match lookupKey k s.cache with
  | none => (none, s)
  | some e =>
    if isExpired e now then (none, (memDelete s k).2)
    else (e.value, { s with access := upsert k now s.access })

/-- Operation `MemoryCache.exists`: present and not expired (an expired
key is lazily purged). It does not refresh the access time. -/
def memExists (s : MemState A) (k : String) (now : Int) : Bool × MemState A :=
  match lookupKey k s.cache with
  | none => (false, s)
  | some e =>
    if isExpired e now then (false, (memDelete s k).2)
    else (true, s)

/-- Operation `MemoryCache.clear`: drop both dicts. -/
def memClear (s : MemState A) : MemState A :=
  { s with cache := [], access := [] }

/-- Operation `MemoryCache.keys`: collect the expired keys, delete each of
them, then return the remaining keys. -/
def memKeys (s : MemState A) (now : Int) : List String × MemState A :=
  let expired := keysOf (s.cache.filter (fun kv => isExpired kv.2 now))
  let s' := expired.foldl (fun st k => (memDelete st k).2) s
  (keysOf s'.cache, s')

/-- One public operation on a `MemoryCache` (its arguments plus the
`time.time()` reading it observes). -/
inductive MemOp (A : Type)
  | get (k : String) (now : Int)
  | set (k : String) (v : Option A) (ttl : TtlArg) (now : Int)
  | del (k : String)
  | chk (k : String) (now : Int)
  | clear
  | keys (now : Int)

/-- State transition of one `MemoryCache` operation (`chk` is `exists()`;
return values are discarded). -/
def memStep (s : MemState A) : MemOp A → MemState A
  | .get k now => (memGet s k now).2
  | .set k v ttl now => memSet s k v ttl now
  | .del k => (memDelete s k).2
  | .chk k now => (memExists s k now).2
  | .clear => memClear s
  | .keys now => (memKeys s now).2

/-- Run a sequence of operations from a state. -/
def memRun (s : MemState A) (ops : List (MemOp A)) : MemState A :=
  ops.foldl memStep s

/-- Representation invariant of `MemoryCache`: the entry dict and the
access-time dict hold exactly the same keys (in the same order), keys are
unique, the store never exceeds `max_size`, and `max_size` is positive. -/
def MemInv (s : MemState A) : Prop :=
  keysOf s.cache = keysOf s.access ∧ (keysOf s.cache).Nodup ∧
    (s.cache.length : Int) ≤ s.max_size ∧ 1 ≤ s.max_size

/-! ### `FileCache` (cache.py lines 212-335)

The cache directory is a map from file stem to file content: `FileCache`
names every file `{md5(key)}.cache`, so the directory entries are keyed by
the hex digest. The digest function is an opaque parameter `h`
(`hashlib.md5(key.encode()).hexdigest()` in the source). Serialization is
the `pickle` round-trip, modelled as the identity on the stored value. -/

/-- Content of one `.cache` file: either a well-formed pickled envelope
`{'value': ..., 'created_at': ..., 'expires_at': ...}` or bytes that make
`pickle.load` raise. -/
inductive FileData (A : Type)
  | corrupt
  | entry (value : Option A) (created_at : Int) (expires_at : Option Int)
deriving DecidableEq, Repr

/-- Cache directory contents: file stem (the hashed key) to file content. -/
abbrev FS (A : Type) := List (String × FileData A)

/-- Predicate `FileCache._is_expired` on an envelope's `expires_at`. -/
def fileExpired (expires_at : Option Int) (now : Int) : Bool :=
  match expires_at with
  | none => false
  | some t => now > t

/-- TTL resolution of `FileCache.set`: there is no sentinel here, the
parameter is a plain `Optional[int]`, so an explicit `None` is
indistinguishable from an omitted `ttl` and falls back to `default_ttl`. -/
def resolveFileTtl (ttl default_ttl : Option Int) (now : Int) : Option Int :=
  match ttl with
  | some n => some (now + n)
  | none => default_ttl.map (fun d => now + d)

/-- Operation `FileCache.set(key, value, ttl=None)`: write the envelope to
the file `{h key}.cache` (pickling a well-formed dict always succeeds, so
no error path is reachable for the pickle serializer). -/
def fileSet (h : String → String) (default_ttl : Option Int) (fs : FS A)
    (k : String) (v : Option A) (ttl : Option Int) (now : Int) : FS A :=
  upsert (h k)
    (FileData.entry v now (resolveFileTtl ttl default_ttl now)) fs

/-- Operation `FileCache.get`: missing file yields `None`; a file that
fails to unpickle is deleted and `CacheSerializationError` is raised; an
expired file is deleted and yields `None`; otherwise the stored value is
returned. -/
def fileGet (h : String → String) (fs : FS A) (k : String) (now : Int) :
    Except CacheErr (Option A) × FS A :=
  match lookupKey (h k) fs with
  | none => (.ok none, fs)
  | some .corrupt => (.error .serialization, eraseKey (h k) fs)
  | some (.entry v _ expires_at) =>
    if fileExpired expires_at now then (.ok none, eraseKey (h k) fs)
    else (.ok v, fs)

/-- Operation `FileCache.delete`: unlink the file if it exists. -/
def fileDelete (h : String → String) (fs : FS A) (k : String) : Bool × FS A :=
  if (lookupKey (h k) fs).isSome then (true, eraseKey (h k) fs)
  else (false, fs)

/-- Operation `FileCache.exists`: `self.get(key) is not None`; a
`CacheSerializationError` from `get` propagates. -/
def fileExists (h : String → String) (fs : FS A) (k : String) (now : Int) :
    Except CacheErr Bool × FS A :=
  match fileGet h fs k now with
  | (.ok v, fs') => (.ok v.isSome, fs')
  | (.error e, fs') => (.error e, fs')

/-- Operation `FileCache.clear`: unlink every `*.cache` file. -/
def fileClear (_fs : FS A) : FS A := ([] : FS A)

/-- Loop body of `FileCache.keys`: for each file stem found by
`glob('*.cache')`, keep it when `self.exists(stem)` holds. Note the source
passes the *stem* (the hashed key) back into `exists`, which hashes it
again. An exception from `exists` propagates out of `keys`. -/
def fileKeysAux (h : String → String) (now : Int) :
    List String → FS A → List String → Except CacheErr (List String) × FS A
  | [], fs, acc => (.ok acc.reverse, fs)
  | stem :: rest, fs, acc =>
    match fileExists h fs stem now with
    | (.ok true, fs') => fileKeysAux h now rest fs' (stem :: acc)
    | (.ok false, fs') => fileKeysAux h now rest fs' acc
    | (.error e, fs') => (.error e, fs')

/-- Operation `FileCache.keys`: enumerate the `*.cache` file stems and
filter them through `exists`. -/
def fileKeys (h : String → String) (fs : FS A) (now : Int) :
    Except CacheErr (List String) × FS A :=
  fileKeysAux h now (keysOf fs) fs []

/-- Concrete stand-in for the md5 hex digest used in witnesses: injective
and fixed-point free on every input, like the real digest on any key that
is not its own md5 hex digest. -/
def demoHash (s : String) : String := "x" ++ s

/-! ### `MultiLevelCache` (cache.py lines 465-538)

A tier is one backend instance inside the composite. The claims exercise
memory-cache tiers, a backend whose every operation raises (the `Mock`
with `side_effect=Exception` from the tests), and a backend whose read
side works but whose write side raises. -/

/-- One tier of a `MultiLevelCache`. -/
inductive Tier (A : Type)
  | mem (s : MemState A)
  | alwaysFails
  | storeFails (s : MemState A)

/-- Dispatch `cache.get(key)` on a tier; `.error` models a raised
exception. -/
def tierGet (t : Tier A) (k : String) (now : Int) : Except Unit (Option A) × Tier A :=
  match t with
  | .mem s => ((.ok (memGet s k now).1), .mem (memGet s k now).2)
  | .alwaysFails => (.error (), .alwaysFails)
  | .storeFails s => ((.ok (memGet s k now).1), .storeFails (memGet s k now).2)

/-- Dispatch `cache.set(key, value, ttl)` on a tier. -/
def tierSet (t : Tier A) (k : String) (v : Option A) (ttl : TtlArg) (now : Int) :
    Except Unit Unit × Tier A :=
  match t with
  | .mem s => (.ok (), .mem (memSet s k v ttl now))
  | .alwaysFails => (.error (), .alwaysFails)
  | .storeFails s => (.error (), .storeFails s)

/-- Dispatch `cache.delete(key)` on a tier. -/
def tierDelete (t : Tier A) (k : String) : Except Unit Bool × Tier A :=
  match t with
  | .mem s => (.ok (memDelete s k).1, .mem (memDelete s k).2)
  | .alwaysFails => (.error (), .alwaysFails)
  | .storeFails s => (.error (), .storeFails s)

/-- A plain `Optional[int]` ttl passed on by value (as `MultiLevelCache`
and `CacheManager` do with `cache.set(key, value, ttl)`) reaches
`MemoryCache.set` as an explicit argument, not as the `_UNSET` sentinel. -/
def ttlArgOfOpt : Option Int → TtlArg
  | none => .noTtl
  | some n => .ttl n

/-- Loop of `MultiLevelCache.get`: try tiers in order, skipping tiers that
raise; on the first hit with a non-`None` value, write the value back into
every earlier tier with `set(key, value)` (best-effort, failures ignored)
and stop. `acc` holds the already-visited tiers in reverse order. -/
def mlGetAux (k : String) (now : Int) (acc : List (Tier A)) :
    List (Tier A) → Option A × List (Tier A)
  | [] => (none, acc.reverse)
  | t :: rest =>
    match tierGet t k now with
    | (.ok (some v), t') =>
      (some v,
        (acc.reverse.map (fun u => (tierSet u k (some v) TtlArg.unset now).2))
          ++ t' :: rest)
    | (.ok none, t') => mlGetAux k now (t' :: acc) rest
    | (.error _, t') => mlGetAux k now (t' :: acc) rest

/-- Operation `MultiLevelCache.get`. -/
def mlGet (tiers : List (Tier A)) (k : String) (now : Int) :
    Option A × List (Tier A) :=
  mlGetAux k now [] tiers

/-- Operation `MultiLevelCache.set`: `set` on every tier, ignoring
per-tier exceptions. -/
def mlSet (tiers : List (Tier A)) (k : String) (v : Option A)
    (ttl : Option Int) (now : Int) : List (Tier A) :=
  tiers.map (fun t => (tierSet t k v (ttlArgOfOpt ttl) now).2)

/-- Operation `MultiLevelCache.delete`: `delete` on every tier, ignoring
per-tier exceptions; true when any tier reported a deletion. -/
def mlDelete (tiers : List (Tier A)) (k : String) : Bool × List (Tier A) :=
  tiers.foldl
    (fun (acc : Bool × List (Tier A)) t =>
      match tierDelete t k with
      | (.ok b, t') => (acc.1 || b, acc.2 ++ [t'])
      | (.error _, t') => (acc.1, acc.2 ++ [t']))
    (false, [])

/-! ### `CacheManager` (cache.py lines 545-638) and the memoization
decorator `cache_result` (lines 645-691)

The claims only exercise the manager's default backend, so the named
backend registry is not part of the state; the default backend is a
`Tier`. -/

/-- Hit/miss/set/delete counters of `CacheManager._stats`. -/
structure Stats where
  hits : Nat
  misses : Nat
  sets : Nat
  deletes : Nat
deriving DecidableEq, Repr

/-- Manager state: the default backend plus the counters. -/
structure MgrState (A : Type) where
  backend : Tier A
  stats : Stats

/-- Operation `CacheManager.get` (default backend): count a hit when the
returned value `is not None`, a miss otherwise; a backend exception counts
a miss and is re-raised wrapped in `CacheError`. -/
def mgrGet (m : MgrState A) (k : String) (now : Int) :
    Except CacheErr (Option A) × MgrState A :=
  match tierGet m.backend k now with
  | (.ok v, b') =>
    if v.isSome then
      (.ok v, { backend := b', stats := { m.stats with hits := m.stats.hits + 1 } })
    else
      (.ok v, { backend := b', stats := { m.stats with misses := m.stats.misses + 1 } })
  | (.error _, b') =>
    (.error .generic,
      { backend := b', stats := { m.stats with misses := m.stats.misses + 1 } })

/-- Operation `CacheManager.set` (default backend): count a set on
success; a backend exception is re-raised wrapped in `CacheError` and the
counter is not incremented. -/
def mgrSet (m : MgrState A) (k : String) (v : Option A) (ttl : Option Int)
    (now : Int) : Except CacheErr Unit × MgrState A :=
  match tierSet m.backend k v (ttlArgOfOpt ttl) now with
  | (.ok _, b') =>
    (.ok (), { backend := b', stats := { m.stats with sets := m.stats.sets + 1 } })
  | (.error _, b') =>
    (.error .generic, { backend := b', stats := m.stats })

/-- One call through the `cache_result` wrapper with derived key `key` and
computation result `fres`: try `manager.get` (exceptions swallowed); on a
non-`None` cached value return it without running the computation;
otherwise run the computation, best-effort `manager.set` the result
(exceptions swallowed), and return it. The `Bool` reports whether the
wrapped computation ran. -/
def cacheResultCall (m : MgrState A) (key : String) (fres : Option A)
    (ttl : Option Int) (now : Int) : Option A × Bool × MgrState A :=
  match mgrGet m key now with
  | (.ok (some v), m') => (some v, false, m')
  | (.ok none, m') => (fres, true, (mgrSet m' key fres ttl now).2)
  | (.error _, m') => (fres, true, (mgrSet m' key fres ttl now).2)

/-! ### Lemmas on association lists -/

@[simp] theorem keysOf_nil : keysOf ([] : List (String × β)) = [] := rfl

@[simp] theorem keysOf_cons (k : String) (v : β) (l : List (String × β)) :
    keysOf ((k, v) :: l) = k :: keysOf l := rfl

@[simp] theorem lookupKey_nil (k : String) : lookupKey k ([] : List (String × β)) = none := rfl

@[simp] theorem lookupKey_cons (k k' : String) (v : β) (l : List (String × β)) :
    lookupKey k ((k', v) :: l) = if k' = k then some v else lookupKey k l := rfl

theorem lookupKey_upsert_self (k : String) (v : β) (l : List (String × β)) :
    lookupKey k (upsert k v l) = some v := by
  induction l with
  | nil => simp [upsert]
  | cons p rest ih =>
    obtain ⟨k', v'⟩ := p
    by_cases h : k' = k
    · simp [upsert, h]
    · simp [upsert, h, ih]

theorem lookupKey_upsert_other {k k' : String} (hne : k' ≠ k) (v : β) (l : List (String × β)) :
    lookupKey k' (upsert k v l) = lookupKey k' l := by
  induction l with
  | nil => simp [upsert, Ne.symm hne]
  | cons p rest ih =>
    obtain ⟨k₀, v₀⟩ := p
    by_cases h : k₀ = k
    · subst h
      simp [upsert, Ne.symm hne]
    · simp [upsert, h, ih]

theorem lookupKey_eq_none_iff (k : String) (l : List (String × β)) :
    lookupKey k l = none ↔ k ∉ keysOf l := by
  induction l with
  | nil => simp
  | cons p rest ih =>
    obtain ⟨k', v'⟩ := p
    by_cases h : k' = k
    · subst h; simp
    · simp only [lookupKey_cons, if_neg h, keysOf_cons, List.mem_cons]
      rw [ih]
      constructor
      · rintro hnot (rfl | hm)
        · exact h rfl
        · exact hnot hm
      · intro hnot hm; exact hnot (Or.inr hm)

theorem keysOf_upsert_mem {k : String} {l : List (String × β)} (h : k ∈ keysOf l) (v : β) :
    keysOf (upsert k v l) = keysOf l := by
  induction l with
  | nil => simp at h
  | cons p rest ih =>
    obtain ⟨k', v'⟩ := p
    by_cases hk : k' = k
    · subst hk; simp [upsert]
    · rcases List.mem_cons.mp (by simpa using h) with rfl | hm
      · exact absurd rfl hk
      · simp [upsert, hk, ih hm]

theorem keysOf_upsert_not_mem {k : String} {l : List (String × β)} (h : k ∉ keysOf l) (v : β) :
    keysOf (upsert k v l) = keysOf l ++ [k] := by
  induction l with
  | nil => simp [upsert]
  | cons p rest ih =>
    obtain ⟨k', v'⟩ := p
    have hk : k' ≠ k := by
      intro hh; subst hh; exact h (by simp)
    have hrest : k ∉ keysOf rest := fun hm => h (by simp [hm])
    simp [upsert, hk, ih hrest]

theorem keysOf_eraseKey (k : String) (l : List (String × β)) :
    keysOf (eraseKey k l) = eraseStr k (keysOf l) := by
  induction l with
  | nil => simp [eraseKey, eraseStr]
  | cons p rest ih =>
    obtain ⟨k', v'⟩ := p
    by_cases h : k' = k
    · simp [eraseKey, eraseStr, h, ih]
    · simp [eraseKey, eraseStr, h, ih]

theorem mem_eraseStr {a k : String} {xs : List String} (h : a ∈ eraseStr k xs) : a ∈ xs := by
  induction xs with
  | nil => simp [eraseStr] at h
  | cons x rest ih =>
    by_cases hx : x = k
    · simp only [eraseStr, if_pos hx] at h
      exact List.mem_cons_of_mem _ (ih h)
    · simp only [eraseStr, if_neg hx, List.mem_cons] at h
      rcases h with rfl | hm
      · exact List.mem_cons_self _ _
      · exact List.mem_cons_of_mem _ (ih hm)

theorem not_mem_eraseStr_self (k : String) (xs : List String) : k ∉ eraseStr k xs := by
  induction xs with
  | nil => simp [eraseStr]
  | cons x rest ih =>
    by_cases hx : x = k
    · simpa [eraseStr, hx] using ih
    · simp only [eraseStr, if_neg hx, List.mem_cons]
      rintro (rfl | hm)
      · exact hx rfl
      · exact ih hm

theorem nodup_eraseStr (k : String) {xs : List String} (h : xs.Nodup) :
    (eraseStr k xs).Nodup := by
  induction xs with
  | nil => simp [eraseStr]
  | cons x rest ih =>
    obtain ⟨hx, hrest⟩ := List.nodup_cons.mp h
    by_cases hxk : x = k
    · simpa [eraseStr, hxk] using ih hrest
    · simp only [eraseStr, if_neg hxk, List.nodup_cons]
      exact ⟨fun hm => hx (mem_eraseStr hm), ih hrest⟩

theorem eraseStr_of_not_mem {k : String} {xs : List String} (h : k ∉ xs) :
    eraseStr k xs = xs := by
  induction xs with
  | nil => rfl
  | cons x rest ih =>
    have hx : x ≠ k := fun hh => h (by simp [hh])
    have hrest : k ∉ rest := fun hm => h (List.mem_cons_of_mem _ hm)
    simp [eraseStr, hx, ih hrest]

theorem length_eraseStr_of_mem {k : String} {xs : List String}
    (hnd : xs.Nodup) (h : k ∈ xs) :
    (eraseStr k xs).length + 1 = xs.length := by
  induction xs with
  | nil => simp at h
  | cons x rest ih =>
    obtain ⟨hx, hrest⟩ := List.nodup_cons.mp hnd
    by_cases hxk : x = k
    · subst hxk
      simp [eraseStr, eraseStr_of_not_mem hx]
    · rcases List.mem_cons.mp h with rfl | hm
      · exact absurd rfl hxk
      · have := ih hrest hm
        simp only [eraseStr, if_neg hxk, List.length_cons]
        omega

theorem length_eraseStr_le (k : String) (xs : List String) :
    (eraseStr k xs).length ≤ xs.length := by
  induction xs with
  | nil => simp [eraseStr]
  | cons x rest ih =>
    by_cases hx : x = k
    · simp only [eraseStr, if_pos hx, List.length_cons]
      omega
    · simp only [eraseStr, if_neg hx, List.length_cons]
      omega

theorem lookupKey_eraseKey_self (k : String) (l : List (String × β)) :
    lookupKey k (eraseKey k l) = none := by
  rw [lookupKey_eq_none_iff, keysOf_eraseKey]
  exact not_mem_eraseStr_self k (keysOf l)

theorem length_eq_length_keysOf (l : List (String × β)) : l.length = (keysOf l).length := by
  induction l with
  | nil => rfl
  | cons p rest ih => obtain ⟨k, v⟩ := p; simp [keysOf, ih]

theorem length_upsert_mem {k : String} {l : List (String × β)}
    (h : k ∈ keysOf l) (v : β) : (upsert k v l).length = l.length := by
  rw [length_eq_length_keysOf, length_eq_length_keysOf l, keysOf_upsert_mem h]

theorem length_upsert_not_mem {k : String} {l : List (String × β)}
    (h : k ∉ keysOf l) (v : β) : (upsert k v l).length = l.length + 1 := by
  rw [length_eq_length_keysOf, length_eq_length_keysOf l, keysOf_upsert_not_mem h]
  simp

theorem lruMin_mem (k : String) (t : Int) (l : List (String × Int)) :
    lruMin k t l ∈ k :: keysOf l := by
  induction l generalizing k t with
  | nil => simp [lruMin]
  | cons p rest ih =>
    obtain ⟨k', t'⟩ := p
    by_cases h : t' < t
    · simp only [lruMin, if_pos h, keysOf_cons]
      have := ih k' t'
      simp only [List.mem_cons] at this ⊢
      tauto
    · simp only [lruMin, if_neg h, keysOf_cons]
      have := ih k t
      simp only [List.mem_cons] at this ⊢
      tauto

theorem nodup_append_singleton {xs : List String} {k : String}
    (h : xs.Nodup) (hk : k ∉ xs) : (xs ++ [k]).Nodup := by
  induction xs with
  | nil => simp
  | cons x rest ih =>
    obtain ⟨hx, hrest⟩ := List.nodup_cons.mp h
    have hk' : k ∉ rest := fun hm => hk (List.mem_cons_of_mem _ hm)
    have hxk : x ≠ k := fun hh => hk (by simp [hh])
    simp only [List.cons_append, List.nodup_cons]
    constructor
    · intro hm
      rcases List.mem_append.mp hm with hm | hm
      · exact hx hm
      · simp only [List.mem_singleton] at hm
        exact hxk hm
    · exact ih hrest hk'

/-! ### Preservation of the `MemoryCache` invariant (claim C5) -/

theorem memDelete_state_pos {s : MemState A} {k : String}
    (hp : (lookupKey k s.cache).isSome) :
    (memDelete s k).2
      = { s with cache := eraseKey k s.cache, access := eraseKey k s.access } := by
  simp [memDelete, hp]

theorem memDelete_state_neg {s : MemState A} {k : String}
    (hp : ¬ (lookupKey k s.cache).isSome) :
    (memDelete s k).2 = s := by
  simp [memDelete, hp]

theorem memInv_delete {s : MemState A} (h : MemInv s) (k : String) :
    MemInv (memDelete s k).2 := by
  obtain ⟨hkeys, hnd, hlen, hpos⟩ := h
  by_cases hp : (lookupKey k s.cache).isSome
  · rw [memDelete_state_pos hp]
    refine ⟨?_, ?_, ?_, hpos⟩
    · show keysOf (eraseKey k s.cache) = keysOf (eraseKey k s.access)
      rw [keysOf_eraseKey, keysOf_eraseKey, hkeys]
    · show (keysOf (eraseKey k s.cache)).Nodup
      rw [keysOf_eraseKey]
      exact nodup_eraseStr k hnd
    · show ((eraseKey k s.cache).length : Int) ≤ s.max_size
      have h1 : (eraseKey k s.cache).length ≤ s.cache.length := by
        rw [length_eq_length_keysOf, length_eq_length_keysOf s.cache, keysOf_eraseKey]
        exact length_eraseStr_le k (keysOf s.cache)
      have h2 : ((eraseKey k s.cache).length : Int) ≤ (s.cache.length : Int) := by
        exact_mod_cast h1
      omega
  · rw [memDelete_state_neg hp]
    exact ⟨hkeys, hnd, hlen, hpos⟩

theorem memInv_evict {s : MemState A} (h : MemInv s) : MemInv (evictLru s) := by
  unfold evictLru
  cases hacc : s.access with
  | nil => exact h
  | cons p rest =>
    obtain ⟨k0, t0⟩ := p
    exact memInv_delete h _

/-- After an eviction from a full cache, the store shrank by one entry. -/
theorem evict_length {s : MemState A} (h : MemInv s)
    (hfull : s.max_size ≤ (s.cache.length : Int)) :
    ((evictLru s).cache.length : Int) + 1 = (s.cache.length : Int) := by
  obtain ⟨hkeys, hnd, hlen, hpos⟩ := h
  have hlenkeys := length_eq_length_keysOf s.cache
  have hne : s.access ≠ [] := by
    intro hnil
    rw [hnil] at hkeys
    simp only [keysOf_nil] at hkeys
    have hz : s.cache.length = 0 := by
      rw [hlenkeys, hkeys]; rfl
    rw [hz] at hfull
    simp at hfull
    omega
  unfold evictLru
  cases hacc : s.access with
  | nil => exact absurd hacc hne
  | cons p rest =>
    obtain ⟨k0, t0⟩ := p
    dsimp only
    have hmem : lruMin k0 t0 rest ∈ keysOf s.cache := by
      rw [hkeys, hacc]
      exact lruMin_mem k0 t0 rest
    have hsome : (lookupKey (lruMin k0 t0 rest) s.cache).isSome := by
      cases hlk : lookupKey (lruMin k0 t0 rest) s.cache with
      | none => exact absurd ((lookupKey_eq_none_iff _ _).mp hlk) (not_not_intro hmem)
      | some _ => rfl
    rw [memDelete_state_pos hsome]
    show ((eraseKey (lruMin k0 t0 rest) s.cache).length : Int) + 1 = (s.cache.length : Int)
    have h2 : (eraseKey (lruMin k0 t0 rest) s.cache).length + 1 = s.cache.length := by
      rw [length_eq_length_keysOf, length_eq_length_keysOf s.cache, keysOf_eraseKey]
      exact length_eraseStr_of_mem hnd hmem
    exact_mod_cast h2

/-- Eviction never introduces a key. -/
theorem evict_not_mem {s : MemState A} {k : String}
    (h : k ∉ keysOf s.cache) : k ∉ keysOf (evictLru s).cache := by
  unfold evictLru
  cases s.access with
  | nil => exact h
  | cons p rest =>
    obtain ⟨k0, t0⟩ := p
    dsimp only
    by_cases hp : (lookupKey (lruMin k0 t0 rest) s.cache).isSome
    · rw [memDelete_state_pos hp]
      intro hm
      exact h (mem_eraseStr (by rwa [keysOf_eraseKey] at hm))
    · rw [memDelete_state_neg hp]
      exact h

theorem memInv_set {s : MemState A} (h : MemInv s)
    (k : String) (v : Option A) (ttl : TtlArg) (now : Int) :
    MemInv (memSet s k v ttl now) := by
  have hinv := h
  obtain ⟨hkeys, hnd, hlen, hpos⟩ := h
  unfold memSet
  by_cases hc : s.max_size ≤ (s.cache.length : Int) ∧ (lookupKey k s.cache).isNone
  · simp only [if_pos hc]
    obtain ⟨hfull, hnone⟩ := hc
    have hkmem : k ∉ keysOf s.cache := by
      rw [← lookupKey_eq_none_iff]
      exact Option.isNone_iff_eq_none.mp hnone
    have hev := memInv_evict hinv
    obtain ⟨hkeys', hnd', hlen', hpos'⟩ := hev
    have hkmem' : k ∉ keysOf (evictLru s).cache := evict_not_mem hkmem
    have hkmem'' : k ∉ keysOf (evictLru s).access := by rwa [← hkeys']
    have hshrunk := evict_length hinv hfull
    refine ⟨?_, ?_, ?_, ?_⟩
    · show keysOf (upsert k _ (evictLru s).cache) = keysOf (upsert k now (evictLru s).access)
      rw [keysOf_upsert_not_mem hkmem', keysOf_upsert_not_mem hkmem'', hkeys']
    · show (keysOf (upsert k _ (evictLru s).cache)).Nodup
      rw [keysOf_upsert_not_mem hkmem']
      exact nodup_append_singleton hnd' hkmem'
    · show ((upsert k _ (evictLru s).cache).length : Int) ≤ (evictLru s).max_size
      rw [length_upsert_not_mem hkmem']
      have hms : (evictLru s).max_size = s.max_size := by
        unfold evictLru
        cases hacc : s.access with
        | nil => rfl
        | cons p rest =>
          obtain ⟨k0, t0⟩ := p
          dsimp only
          unfold memDelete
          split <;> rfl
      rw [hms]
      push_cast
      omega
    · show 1 ≤ (evictLru s).max_size
      exact hpos'
  · simp only [if_neg hc]
    by_cases hk : k ∈ keysOf s.cache
    · have hk' : k ∈ keysOf s.access := by rwa [hkeys] at hk
      refine ⟨?_, ?_, ?_, hpos⟩
      · show keysOf (upsert k _ s.cache) = keysOf (upsert k now s.access)
        rw [keysOf_upsert_mem hk, keysOf_upsert_mem hk', hkeys]
      · show (keysOf (upsert k _ s.cache)).Nodup
        rw [keysOf_upsert_mem hk]
        exact hnd
      · show ((upsert k _ s.cache).length : Int) ≤ s.max_size
        rw [length_upsert_mem hk]
        exact hlen
    · have hk' : k ∉ keysOf s.access := by rwa [hkeys] at hk
      have hnone : (lookupKey k s.cache).isNone := by
        rw [Option.isNone_iff_eq_none, lookupKey_eq_none_iff]
        exact hk
      have hnotfull : ¬ s.max_size ≤ (s.cache.length : Int) := by
        intro hfull
        exact hc ⟨hfull, hnone⟩
      refine ⟨?_, ?_, ?_, hpos⟩
      · show keysOf (upsert k _ s.cache) = keysOf (upsert k now s.access)
        rw [keysOf_upsert_not_mem hk, keysOf_upsert_not_mem hk', hkeys]
      · show (keysOf (upsert k _ s.cache)).Nodup
        rw [keysOf_upsert_not_mem hk]
        exact nodup_append_singleton hnd hk
      · show ((upsert k _ s.cache).length : Int) ≤ s.max_size
        rw [length_upsert_not_mem hk]
        push_cast
        omega

theorem memInv_get {s : MemState A} (h : MemInv s) (k : String) (now : Int) :
    MemInv (memGet s k now).2 := by
  have hinv := h
  obtain ⟨hkeys, hnd, hlen, hpos⟩ := h
  unfold memGet
  cases hlk : lookupKey k s.cache with
  | none => exact hinv
  | some e =>
    by_cases hexp : isExpired e now
    · simp only [if_pos hexp]
      exact memInv_delete hinv k
    · simp only [if_neg hexp]
      have hk : k ∈ keysOf s.cache := by
        by_contra hk
        rw [← lookupKey_eq_none_iff] at hk
        rw [hlk] at hk
        cases hk
      have hk' : k ∈ keysOf s.access := by rwa [hkeys] at hk
      exact ⟨by rw [show keysOf s.cache = _ from hkeys, keysOf_upsert_mem hk'], hnd, hlen, hpos⟩

theorem memInv_chk {s : MemState A} (h : MemInv s) (k : String) (now : Int) :
    MemInv (memExists s k now).2 := by
  have hinv := h
  unfold memExists
  cases hlk : lookupKey k s.cache with
  | none => exact hinv
  | some e =>
    by_cases hexp : isExpired e now
    · simp only [if_pos hexp]
      exact memInv_delete hinv k
    · simp only [if_neg hexp]
      exact hinv

theorem memInv_clear {s : MemState A} (h : MemInv s) : MemInv (memClear s) := by
  obtain ⟨hkeys, hnd, hlen, hpos⟩ := h
  refine ⟨rfl, List.nodup_nil, ?_, hpos⟩
  show ((List.length ([] : List (String × MemEntry A)) : Int)) ≤ s.max_size
  simp only [List.length_nil, Int.natCast_zero]
  omega

theorem memInv_keys {s : MemState A} (h : MemInv s) (now : Int) :
    MemInv (memKeys s now).2 := by
  unfold memKeys
  dsimp only
  generalize keysOf (s.cache.filter (fun kv => isExpired kv.2 now)) = expired
  induction expired generalizing s with
  | nil => exact h
  | cons k rest ih =>
    simp only [List.foldl_cons]
    exact ih (memInv_delete h k)

theorem memInv_step {s : MemState A} (h : MemInv s) (op : MemOp A) :
    MemInv (memStep s op) := by
  cases op with
  | get k now => exact memInv_get h k now
  | set k v ttl now => exact memInv_set h k v ttl now
  | del k => exact memInv_delete h k
  | chk k now => exact memInv_chk h k now
  | clear => exact memInv_clear h
  | keys now => exact memInv_keys h now

theorem memInv_run {s : MemState A} (h : MemInv s) (ops : List (MemOp A)) :
    MemInv (memRun s ops) := by
  induction ops generalizing s with
  | nil => exact h
  | cons op rest ih =>
    exact ih (memInv_step h op)

theorem memSet_cache (s : MemState A) (k : String) (v : Option A) (ta : TtlArg) (now : Int) :
    (memSet s k v ta now).cache
      = upsert k
          { value := v, created_at := now,
            expires_at := resolveTtl ta s.default_ttl now }
          ((if s.max_size ≤ (s.cache.length : Int) ∧ (lookupKey k s.cache).isNone
            then evictLru s else s).cache) := rfl

theorem mem_get_after_set {s : MemState A} {k : String} {v : Option A} {ta : TtlArg}
    {now t : Int} (hre : resolveTtl ta s.default_ttl now = none) :
    (memGet (memSet s k v ta now) k t).1 = v := by
  unfold memGet
  rw [memSet_cache, hre, lookupKey_upsert_self]
  rfl

theorem mem_get_after_set_none {s : MemState A} {k : String} {ta : TtlArg}
    {now t : Int} :
    (memGet (memSet s k none ta now) k t).1 = none := by
  unfold memGet
  rw [memSet_cache, lookupKey_upsert_self]
  dsimp only
  split <;> rfl

theorem mem_exists_after_set {s : MemState A} {k : String} {v : Option A} {ta : TtlArg}
    {now t : Int} (hre : resolveTtl ta s.default_ttl now = none) :
    (memExists (memSet s k v ta now) k t).1 = true := by
  unfold memExists
  rw [memSet_cache, hre, lookupKey_upsert_self]
  rfl

theorem file_lookup_after_set (h : String → String) (dttl : Option Int) (fs : FS A)
    (k : String) (v : Option A) (ttl : Option Int) (now : Int) :
    lookupKey (h k) (fileSet h dttl fs k v ttl now)
      = some (FileData.entry v now (resolveFileTtl ttl dttl now)) := by
  unfold fileSet
  exact lookupKey_upsert_self _ _ _

theorem file_get_after_set_none {h : String → String} {dttl : Option Int} {fs : FS A}
    {k : String} {ttl : Option Int} {now t : Int} :
    (fileGet h (fileSet h dttl fs k none ttl now) k t).1 = .ok none := by
  unfold fileGet
  rw [file_lookup_after_set]
  dsimp only
  split <;> rfl

/-- C3: the claim says constructing `MemoryCache` with `max_size <= 0`
raises at construction time; in the source `__init__` stores the
parameters without any validation, so construction succeeds at the
non-positive input `max_size = 0`. -/
theorem C3_nonpositive_max_size_accepted :
    memInit Unit 0 none = .ok (memEmpty Unit 0 none) := rfl

/-- C3 (amended): constructing a Memory Backend never raises, for every
`max_size` (non-positive values included) and every `default_ttl`; the
parameters are stored unvalidated. -/
theorem C3_constructor_never_raises (A : Type) (m : Int) (d : Option Int) :
    memInit A m d = .ok (memEmpty A m d) := rfl

/-- C2: the claim says an explicit `ttl=None` never expires on every
backend, including a File Backend with a non-null `default_ttl`. On the
File Backend `set(k, v, ttl=None)` with `default_ttl = 1` at time 0
stores an entry that expires at time 1, so `get` at time 2 returns the
absent signal instead of the stored value `some ()`. -/
theorem C2_file_ttl_none_expires :
    (fileGet demoHash
        (fileSet demoHash (some 1) ([] : FS Unit) "k" (some ()) none 0) "k" 2).1
      = Except.ok none := rfl

/-- C2 (amended): an explicit `ttl=None` never expires on the Memory
Backend (its `_UNSET` sentinel distinguishes it from an omitted `ttl`);
on the File Backend an explicit `ttl=None` is indistinguishable from an
omitted `ttl` and falls back to `default_ttl = d`, so the entry is served
up to time `now + d` and is expired afterwards. -/
theorem C2_ttl_none_amended (A : Type) (s : MemState A) (k : String) (v : Option A)
    (now t : Int) (h : String → String) (fs : FS A) (w : Option A) (d now2 t2 : Int) :
    (memGet (memSet s k v TtlArg.noTtl now) k t).1 = v
    ∧ (t2 ≤ now2 + d →
        (fileGet h (fileSet h (some d) fs k w none now2) k t2).1 = .ok w)
    ∧ (now2 + d < t2 →
        (fileGet h (fileSet h (some d) fs k w none now2) k t2).1 = .ok none) := by
  refine ⟨mem_get_after_set rfl, ?_, ?_⟩
  · intro hlive
    unfold fileGet
    rw [file_lookup_after_set]
    dsimp only
    have hexp : fileExpired (resolveFileTtl none (some d) now2) t2 = false := by
      simp only [resolveFileTtl, Option.map_some', fileExpired, gt_iff_lt,
        decide_eq_false_iff_not, not_lt]
      omega
    rw [hexp]
    rfl
  · intro hdead
    unfold fileGet
    rw [file_lookup_after_set]
    dsimp only
    have hexp : fileExpired (resolveFileTtl none (some d) now2) t2 = true := by
      simp only [resolveFileTtl, Option.map_some', fileExpired, gt_iff_lt,
        decide_eq_true_eq]
      omega
    rw [hexp]
    rfl

/-- C2 witness: the amended statement at concrete inputs — a Memory
Backend stores `5` under `ttl=None` and serves it at a much later time; a
File Backend with `default_ttl = 1` serves the value at time 1 and has
expired it at time 3. -/
theorem C2_ttl_none_amended_witness :
    (memGet (memSet (memEmpty Nat 4 (some 1)) "k" (some 5) TtlArg.noTtl 0) "k" 100).1
        = some 5
    ∧ (fileGet demoHash
          (fileSet demoHash (some 1) ([] : FS Nat) "k" (some 7) none 0) "k" 1).1
        = .ok (some 7)
    ∧ (fileGet demoHash
          (fileSet demoHash (some 1) ([] : FS Nat) "k" (some 7) none 0) "k" 3).1
        = .ok none := by
  refine ⟨?_, ?_, ?_⟩
  · exact (C2_ttl_none_amended Nat (memEmpty Nat 4 (some 1)) "k" (some 5) 0 100
      demoHash ([] : FS Nat) (some 7) 1 0 1).1
  · exact (C2_ttl_none_amended Nat (memEmpty Nat 4 (some 1)) "k" (some 5) 0 100
      demoHash ([] : FS Nat) (some 7) 1 0 1).2.1 (by decide)
  · exact (C2_ttl_none_amended Nat (memEmpty Nat 4 (some 1)) "k" (some 5) 0 100
      demoHash ([] : FS Nat) (some 7) 1 0 3).2.2 (by decide)

/-- C8: when the file for key `k` exists but cannot be unpickled,
`FileCache.get` deletes the file and raises `CacheSerializationError`;
an immediately repeated `get` then cleanly reports absent. -/
theorem C8_corrupt_self_heal (A : Type) (h : String → String) (fs : FS A)
    (k : String) (now now2 : Int)
    (hcor : lookupKey (h k) fs = some FileData.corrupt) :
    fileGet h fs k now = (.error .serialization, eraseKey (h k) fs)
    ∧ (fileGet h (eraseKey (h k) fs) k now2).1 = .ok none := by
  constructor
  · unfold fileGet
    rw [hcor]
  · unfold fileGet
    rw [lookupKey_eraseKey_self]

/-- C8 witness: a directory holding one corrupt file under the hashed
name of "k"; `get("k")` raises and heals, the retry reports absent. -/
theorem C8_corrupt_self_heal_witness :
    lookupKey (demoHash "k") [(demoHash "k", (FileData.corrupt : FileData Unit))]
        = some FileData.corrupt
    ∧ fileGet demoHash [(demoHash "k", (FileData.corrupt : FileData Unit))] "k" 0
        = (.error .serialization,
           eraseKey (demoHash "k") [(demoHash "k", (FileData.corrupt : FileData Unit))])
    ∧ (fileGet demoHash
          (eraseKey (demoHash "k") [(demoHash "k", (FileData.corrupt : FileData Unit))])
          "k" 0).1 = .ok none := by
  refine ⟨by decide, ?_, ?_⟩
  · exact (C8_corrupt_self_heal Unit demoHash _ "k" 0 0 (by decide)).1
  · exact (C8_corrupt_self_heal Unit demoHash _ "k" 0 0 (by decide)).2

/-- C1: the claim says `FileCache.keys()` returns every live logical key,
so after `set("k", v)` it should contain `"k"`. In the source, `keys()`
iterates the file stems — which are the md5 digests of the logical keys —
and passes each *stem* back into `exists`, which hashes it a second time
and looks for a file that does not exist. The result is the empty list:
the logical key `"k"` (and even its digest) is never returned. -/
theorem C1_file_keys_empty_after_set :
    (fileKeys demoHash
        (fileSet demoHash none ([] : FS Unit) "k" (some ()) none 0) 0).1
      = Except.ok ([] : List String) := rfl

theorem file_exists_after_set_none {h : String → String} {dttl : Option Int} {fs : FS A}
    {k : String} {ttl : Option Int} {now t : Int} :
    (fileExists h (fileSet h dttl fs k none ttl now) k t).1 = .ok false := by
  unfold fileExists
  have h1 : (fileGet h (fileSet h dttl fs k none ttl now) k t).1 = .ok none :=
    file_get_after_set_none
  rcases hfg : fileGet h (fileSet h dttl fs k none ttl now) k t with ⟨r, fs2⟩
  rw [hfg] at h1
  dsimp only at h1
  subst h1
  rfl

/-- C10 counterexample: the claim says that after `set(k, None)` every
backend's `exists(k)` is false; on the Memory Backend `exists` finds the
stored entry, sees it unexpired and answers true. -/
theorem C10_memory_exists_stored_none :
    (memExists (memSet (memEmpty Unit 10 none) "k" none TtlArg.unset 0) "k" 0).1
      = true := rfl

/-- C10 (amended): a stored `None` is indistinguishable from absence at
`get` on every backend — after `set(k, None)`, `get(k)` returns the
absent signal, the File Backend's `exists(k)` is false, a Multi-Level
`get` that reads `None` from a tier keeps searching lower tiers, the
Manager counts such a `get` as a miss, and a memoized computation whose
cached result is `None` runs again and returns its fresh result. The one
exception to the claim is the Memory Backend's `exists`, which reports a
live stored `None` as present. -/
theorem C10_none_value_amended (A : Type) (s s2 : MemState A) (k : String) (ta : TtlArg)
    (t0 now t : Int) (a : A) (st : Stats) (fres : Option A) (ttl : Option Int)
    (hhit : (memGet s2 k now).1 = some a) :
    (memGet (memSet s k none ta t0) k t).1 = none
    ∧ (memExists (memSet s k none TtlArg.noTtl t0) k t).1 = true
    ∧ (∀ (h : String → String) (dttl : Option Int) (fs : FS A) (ttl2 : Option Int),
        (fileGet h (fileSet h dttl fs k none ttl2 t0) k t).1 = .ok none
        ∧ (fileExists h (fileSet h dttl fs k none ttl2 t0) k t).1 = .ok false)
    ∧ (mlGet [Tier.mem (memSet s k none ta t0), Tier.mem s2] k now).1 = some a
    ∧ mgrGet ⟨Tier.mem (memSet s k none ta t0), st⟩ k now
        = (.ok none, ⟨Tier.mem (memGet (memSet s k none ta t0) k now).2,
            { st with misses := st.misses + 1 }⟩)
    ∧ (cacheResultCall ⟨Tier.mem (memSet s k none ta t0), st⟩ k fres ttl now).1 = fres
    ∧ (cacheResultCall ⟨Tier.mem (memSet s k none ta t0), st⟩ k fres ttl now).2.1
        = true := by
  refine ⟨mem_get_after_set_none, mem_exists_after_set rfl, ?_, ?_, ?_, ?_, ?_⟩
  · intro h dttl fs ttl2
    exact ⟨file_get_after_set_none, file_exists_after_set_none⟩
  · simp [mlGet, mlGetAux, tierGet, mem_get_after_set_none, hhit]
  · simp [mgrGet, tierGet, mem_get_after_set_none]
  · simp [cacheResultCall, mgrGet, tierGet, mem_get_after_set_none]
  · simp [cacheResultCall, mgrGet, tierGet, mem_get_after_set_none]

/-- C10 witness: concrete stored-`None` scenarios — `get` after
`set("k", None)` reports absent while a second tier's real value `3` is
still found by the composite. -/
theorem C10_none_value_amended_witness :
    (memGet (memSet (memEmpty Nat 5 none) "k" none TtlArg.unset 0) "k" 1).1 = none
    ∧ (mlGet [Tier.mem (memSet (memEmpty Nat 5 none) "k" none TtlArg.unset 0),
              Tier.mem (memSet (memEmpty Nat 5 none) "k" (some 3) TtlArg.noTtl 0)]
        "k" 1).1 = some 3 := by
  have H := C10_none_value_amended Nat (memEmpty Nat 5 none)
      (memSet (memEmpty Nat 5 none) "k" (some 3) TtlArg.noTtl 0) "k" TtlArg.unset
      0 1 1 3 (Stats.mk 0 0 0 0) (some 9) none (by rfl)
  exact ⟨H.1, H.2.2.2.1⟩

/-- C9: the memoization wrapper never lets the cache break the
computation. With a manager whose backend raises on every operation, the
wrapper swallows the lookup error, runs the computation and returns its
result (the store error is swallowed too); with a backend whose lookup
works but whose store raises, a cache miss still runs the computation and
returns its result, with the store failure swallowed. -/
theorem C9_wrapper_swallows_cache_errors (A : Type) (st : Stats) (k : String)
    (fres : Option A) (ttl : Option Int) (now : Int) (s : MemState A)
    (hmiss : (memGet s k now).1 = none) :
    cacheResultCall ⟨Tier.alwaysFails, st⟩ k fres ttl now
      = (fres, true, ⟨Tier.alwaysFails, { st with misses := st.misses + 1 }⟩)
    ∧ cacheResultCall ⟨Tier.storeFails s, st⟩ k fres ttl now
      = (fres, true, ⟨Tier.storeFails (memGet s k now).2,
          { st with misses := st.misses + 1 }⟩) := by
  constructor
  · rfl
  · simp [cacheResultCall, mgrGet, mgrSet, tierGet, tierSet, hmiss]

/-- C9 witness: a fresh memory state misses the key, so both failing
backends make the wrapper run the computation and return `some ()`. -/
theorem C9_wrapper_swallows_cache_errors_witness :
    cacheResultCall ⟨Tier.alwaysFails, Stats.mk 0 0 0 0⟩ "k" (some ()) none 0
      = (some (), true, ⟨Tier.alwaysFails, Stats.mk 0 1 0 0⟩)
    ∧ cacheResultCall ⟨Tier.storeFails (memEmpty Unit 5 none), Stats.mk 0 0 0 0⟩
        "k" (some ()) none 0
      = (some (), true,
         ⟨Tier.storeFails (memGet (memEmpty Unit 5 none) "k" 0).2, Stats.mk 0 1 0 0⟩) :=
  C9_wrapper_swallows_cache_errors Unit (Stats.mk 0 0 0 0) "k" (some ()) none 0
    (memEmpty Unit 5 none) (by rfl)

/-- C7: fault isolation of the Multi-Level Backend. With one healthy
memory tier and one tier whose every operation raises — in either order —
`set` stores the value in the healthy tier, `get` returns exactly what
the healthy tier returns, and `delete` reports exactly whether the
healthy tier deleted; no exception escapes (the composite operations are
total functions). -/
theorem C7_fault_isolation (A : Type) (s : MemState A) (k : String) (v : Option A)
    (ttl : Option Int) (now : Int) :
    mlSet [Tier.alwaysFails, Tier.mem s] k v ttl now
      = [Tier.alwaysFails, Tier.mem (memSet s k v (ttlArgOfOpt ttl) now)]
    ∧ mlGet [Tier.alwaysFails, Tier.mem s] k now
      = ((memGet s k now).1, [Tier.alwaysFails, Tier.mem (memGet s k now).2])
    ∧ mlDelete [Tier.alwaysFails, Tier.mem s] k
      = ((memDelete s k).1, [Tier.alwaysFails, Tier.mem (memDelete s k).2])
    ∧ mlSet [Tier.mem s, Tier.alwaysFails] k v ttl now
      = [Tier.mem (memSet s k v (ttlArgOfOpt ttl) now), Tier.alwaysFails]
    ∧ mlGet [Tier.mem s, Tier.alwaysFails] k now
      = ((memGet s k now).1, [Tier.mem (memGet s k now).2, Tier.alwaysFails])
    ∧ mlDelete [Tier.mem s, Tier.alwaysFails] k
      = ((memDelete s k).1, [Tier.mem (memDelete s k).2, Tier.alwaysFails]) := by
  refine ⟨rfl, ?_, ?_, rfl, ?_, ?_⟩
  · cases hg : (memGet s k now).1 <;>
      simp [mlGet, mlGetAux, tierGet, tierSet, hg]
  · simp [mlDelete, tierDelete]
  · cases hg : (memGet s k now).1 <;>
      simp [mlGet, mlGetAux, tierGet, tierSet, hg]
  · simp [mlDelete, tierDelete]

/-- C6: write-back propagation. If the slower tier is written directly
and the fast tier is cold for the key (and neither tier has a default
TTL), the composite `get` returns the value, the post-state of the fast
tier is exactly a `set` of that value into it, and a subsequent direct
`get` on that fast tier returns the value. -/
theorem C6_writeback_propagation (A : Type) (fast slow : MemState A) (k : String)
    (a : A) (t0 t1 t2 : Int)
    (hcold : lookupKey k fast.cache = none)
    (hfd : fast.default_ttl = none) (hsd : slow.default_ttl = none) :
    (mlGet [Tier.mem fast, Tier.mem (memSet slow k (some a) TtlArg.unset t0)] k t1).1
      = some a
    ∧ (mlGet [Tier.mem fast, Tier.mem (memSet slow k (some a) TtlArg.unset t0)] k t1).2
      = [Tier.mem (memSet fast k (some a) TtlArg.unset t1),
         Tier.mem (memGet (memSet slow k (some a) TtlArg.unset t0) k t1).2]
    ∧ (memGet (memSet fast k (some a) TtlArg.unset t1) k t2).1 = some a := by
  have hfast : memGet fast k t1 = (none, fast) := by
    unfold memGet
    rw [hcold]
  have hslow : (memGet (memSet slow k (some a) TtlArg.unset t0) k t1).1 = some a :=
    mem_get_after_set (by simp [resolveTtl, hsd])
  refine ⟨?_, ?_, mem_get_after_set (by simp [resolveTtl, hfd])⟩
  · simp [mlGet, mlGetAux, tierGet, tierSet, hfast, hslow]
  · simp [mlGet, mlGetAux, tierGet, tierSet, hfast, hslow]

/-- C6 witness: two fresh memory tiers; the slow one is written with `7`
directly, the composite finds it and the fast tier then holds it. -/
theorem C6_writeback_propagation_witness :
    (mlGet [Tier.mem (memEmpty Nat 3 none),
            Tier.mem (memSet (memEmpty Nat 3 none) "k" (some 7) TtlArg.unset 0)]
        "k" 1).1 = some 7
    ∧ (memGet (memSet (memEmpty Nat 3 none) "k" (some 7) TtlArg.unset 1) "k" 2).1
        = some 7 := by
  have H := C6_writeback_propagation Nat (memEmpty Nat 3 none) (memEmpty Nat 3 none)
      "k" 7 0 1 2 rfl rfl rfl
  exact ⟨H.1, H.2.2⟩

/-- C4: the spec's concrete LRU scenario, for arbitrary distinct keys and
strictly increasing clock readings: fill a `max_size = 3` cache with
`a, b, c`, refresh `a` by reading it, then insert `d`; `b` (the least
recently accessed) is evicted while `a`, `c`, `d` survive. -/
theorem C4_lru_eviction_sequence {A : Type} (a b c d : String) (v1 v2 v3 v4 : A)
    (hab : a ≠ b) (hac : a ≠ c) (had : a ≠ d)
    (hbc : b ≠ c) (hbd : b ≠ d) (hcd : c ≠ d)
    (t0 t1 t2 t3 t4 t5 : Int)
    (h01 : t0 < t1) (h12 : t1 < t2) (h23 : t2 < t3) (h34 : t3 < t4) (h45 : t4 < t5) :
    (memGet (memSet (memGet (memSet (memSet (memSet (memEmpty A 3 none)
        a (some v1) .unset t0) b (some v2) .unset t1) c (some v3) .unset t2)
        a t3).2 d (some v4) .unset t4) b t5).1 = none
    ∧ (memGet (memSet (memGet (memSet (memSet (memSet (memEmpty A 3 none)
        a (some v1) .unset t0) b (some v2) .unset t1) c (some v3) .unset t2)
        a t3).2 d (some v4) .unset t4) a t5).1 = some v1
    ∧ (memGet (memSet (memGet (memSet (memSet (memSet (memEmpty A 3 none)
        a (some v1) .unset t0) b (some v2) .unset t1) c (some v3) .unset t2)
        a t3).2 d (some v4) .unset t4) c t5).1 = some v3
    ∧ (memGet (memSet (memGet (memSet (memSet (memSet (memEmpty A 3 none)
        a (some v1) .unset t0) b (some v2) .unset t1) c (some v3) .unset t2)
        a t3).2 d (some v4) .unset t4) d t5).1 = some v4
    ∧ (memGet (memSet (memSet (memSet (memEmpty A 3 none)
        a (some v1) .unset t0) b (some v2) .unset t1) c (some v3) .unset t2) a t3).1
      = some v1 := by
  have h13 : t1 < t3 := lt_trans h12 h23
  have h21 : ¬ (t2 < t1) := by omega
  have e1 : memSet (memEmpty A 3 none) a (some v1) .unset t0
      = MemState.mk 3 none [(a, MemEntry.mk (some v1) t0 none)] [(a, t0)] := by
    simp [memSet, memEmpty, upsert, resolveTtl]
  have e2 : memSet (MemState.mk 3 none [(a, MemEntry.mk (some v1) t0 none)] [(a, t0)])
        b (some v2) .unset t1
      = MemState.mk 3 none
          [(a, MemEntry.mk (some v1) t0 none), (b, MemEntry.mk (some v2) t1 none)]
          [(a, t0), (b, t1)] := by
    simp [memSet, upsert, lookupKey, resolveTtl, hab]
  have e3 : memSet (MemState.mk 3 none
          [(a, MemEntry.mk (some v1) t0 none), (b, MemEntry.mk (some v2) t1 none)]
          [(a, t0), (b, t1)])
        c (some v3) .unset t2
      = MemState.mk 3 none
          [(a, MemEntry.mk (some v1) t0 none), (b, MemEntry.mk (some v2) t1 none),
           (c, MemEntry.mk (some v3) t2 none)]
          [(a, t0), (b, t1), (c, t2)] := by
    simp [memSet, upsert, lookupKey, resolveTtl, hac, hbc]
  have e4 : memGet (MemState.mk 3 none
          [(a, MemEntry.mk (some v1) t0 none), (b, MemEntry.mk (some v2) t1 none),
           (c, MemEntry.mk (some v3) t2 none)]
          [(a, t0), (b, t1), (c, t2)]) a t3
      = (some v1, MemState.mk 3 none
          [(a, MemEntry.mk (some v1) t0 none), (b, MemEntry.mk (some v2) t1 none),
           (c, MemEntry.mk (some v3) t2 none)]
          [(a, t3), (b, t1), (c, t2)]) := by
    simp [memGet, lookupKey, upsert, isExpired]
  have e5 : memSet (MemState.mk 3 none
          [(a, MemEntry.mk (some v1) t0 none), (b, MemEntry.mk (some v2) t1 none),
           (c, MemEntry.mk (some v3) t2 none)]
          [(a, t3), (b, t1), (c, t2)])
        d (some v4) .unset t4
      = MemState.mk 3 none
          [(a, MemEntry.mk (some v1) t0 none), (c, MemEntry.mk (some v3) t2 none),
           (d, MemEntry.mk (some v4) t4 none)]
          [(a, t3), (c, t2), (d, t4)] := by
    simp [memSet, upsert, lookupKey, evictLru, lruMin, memDelete, eraseKey, resolveTtl,
      hab, hac, had, hbc, hbd, hcd,
      Ne.symm hab, Ne.symm hac, Ne.symm had, Ne.symm hbc, Ne.symm hbd, Ne.symm hcd,
      h13, h21]
  rw [e1, e2, e3, e4, e5]
  refine ⟨?_, ?_, ?_, ?_, rfl⟩ <;>
    simp [memGet, lookupKey, isExpired, hab, hac, had, hbc, hbd, hcd,
      Ne.symm hab, Ne.symm hac, Ne.symm had, Ne.symm hbc, Ne.symm hbd, Ne.symm hcd]

/-- C4 witness: the scenario at keys "a".."d", values 1..4 and clock
readings 0..5. -/
theorem C4_lru_eviction_sequence_witness :
    (memGet (memSet (memGet (memSet (memSet (memSet (memEmpty Nat 3 none)
        "a" (some 1) .unset 0) "b" (some 2) .unset 1) "c" (some 3) .unset 2)
        "a" 3).2 "d" (some 4) .unset 4) "b" 5).1 = none
    ∧ (memGet (memSet (memGet (memSet (memSet (memSet (memEmpty Nat 3 none)
        "a" (some 1) .unset 0) "b" (some 2) .unset 1) "c" (some 3) .unset 2)
        "a" 3).2 "d" (some 4) .unset 4) "a" 5).1 = some 1
    ∧ (memGet (memSet (memGet (memSet (memSet (memSet (memEmpty Nat 3 none)
        "a" (some 1) .unset 0) "b" (some 2) .unset 1) "c" (some 3) .unset 2)
        "a" 3).2 "d" (some 4) .unset 4) "c" 5).1 = some 3
    ∧ (memGet (memSet (memGet (memSet (memSet (memSet (memEmpty Nat 3 none)
        "a" (some 1) .unset 0) "b" (some 2) .unset 1) "c" (some 3) .unset 2)
        "a" 3).2 "d" (some 4) .unset 4) "d" 5).1 = some 4
    ∧ (memGet (memSet (memSet (memSet (memEmpty Nat 3 none)
        "a" (some 1) .unset 0) "b" (some 2) .unset 1) "c" (some 3) .unset 2) "a" 3).1
      = some 1 :=
  C4_lru_eviction_sequence "a" "b" "c" "d" 1 2 3 4
    (by decide) (by decide) (by decide) (by decide) (by decide) (by decide)
    0 1 2 3 4 5
    (by decide) (by decide) (by decide) (by decide) (by decide)

theorem memDelete_max_size (s : MemState A) (k : String) :
    (memDelete s k).2.max_size = s.max_size := by
  unfold memDelete
  split <;> rfl

theorem evictLru_max_size (s : MemState A) : (evictLru s).max_size = s.max_size := by
  unfold evictLru
  cases s.access with
  | nil => rfl
  | cons p rest =>
    obtain ⟨k0, t0⟩ := p
    dsimp only
    exact memDelete_max_size s (lruMin k0 t0 rest)

theorem memSet_max_size (s : MemState A) (k : String) (v : Option A) (ttl : TtlArg)
    (now : Int) : (memSet s k v ttl now).max_size = s.max_size := by
  by_cases hc : s.max_size ≤ (s.cache.length : Int) ∧ (lookupKey k s.cache).isNone
  · simp only [memSet, if_pos hc]
    exact evictLru_max_size s
  · simp only [memSet, if_neg hc]

theorem memGet_max_size (s : MemState A) (k : String) (now : Int) :
    (memGet s k now).2.max_size = s.max_size := by
  unfold memGet
  cases hlk : lookupKey k s.cache with
  | none => rfl
  | some e =>
    dsimp only
    split
    · exact memDelete_max_size s k
    · rfl

theorem memExists_max_size (s : MemState A) (k : String) (now : Int) :
    (memExists s k now).2.max_size = s.max_size := by
  unfold memExists
  cases hlk : lookupKey k s.cache with
  | none => rfl
  | some e =>
    dsimp only
    split
    · exact memDelete_max_size s k
    · rfl

theorem foldl_delete_max_size (expired : List String) (s : MemState A) :
    (expired.foldl (fun st k => (memDelete st k).2) s).max_size = s.max_size := by
  induction expired generalizing s with
  | nil => rfl
  | cons k rest ih =>
    simp only [List.foldl_cons]
    rw [ih, memDelete_max_size]

theorem memKeys_max_size (s : MemState A) (now : Int) :
    (memKeys s now).2.max_size = s.max_size := by
  unfold memKeys
  dsimp only
  exact foldl_delete_max_size _ s

theorem memStep_max_size (s : MemState A) (op : MemOp A) :
    (memStep s op).max_size = s.max_size := by
  cases op with
  | get k now => exact memGet_max_size s k now
  | set k v ttl now => exact memSet_max_size s k v ttl now
  | del k => exact memDelete_max_size s k
  | chk k now => exact memExists_max_size s k now
  | clear => rfl
  | keys now => exact memKeys_max_size s now

theorem memRun_max_size (s : MemState A) (ops : List (MemOp A)) :
    (memRun s ops).max_size = s.max_size := by
  induction ops generalizing s with
  | nil => rfl
  | cons op rest ih =>
    show (memRun (memStep s op) rest).max_size = s.max_size
    rw [ih, memStep_max_size]

/-- C5: from an empty Memory Backend with positive `max_size`, every
sequence of `get`/`set`/`delete`/`exists`/`clear`/`keys` operations
leaves at most `max_size` stored entries, and the entry dict and the
access-time dict hold exactly the same keys. (The sequence of operations
is arbitrary, so the invariant holds after every prefix, i.e. after every
operation.) -/
theorem C5_memory_store_invariant (A : Type) (m : Int) (d : Option Int)
    (ops : List (MemOp A)) (hm : 1 ≤ m) :
    ((memRun (memEmpty A m d) ops).cache.length : Int) ≤ m
    ∧ keysOf (memRun (memEmpty A m d) ops).cache
        = keysOf (memRun (memEmpty A m d) ops).access := by
  have hbase : MemInv (memEmpty A m d) := by
    refine ⟨rfl, List.nodup_nil, ?_, hm⟩
    show ((List.length ([] : List (String × MemEntry A)) : Int)) ≤ m
    simp only [List.length_nil, Int.natCast_zero]
    omega
  obtain ⟨hk, hnd, hlen, hpos⟩ := memInv_run hbase ops
  have hms : (memRun (memEmpty A m d) ops).max_size = m := memRun_max_size _ _
  rw [hms] at hlen
  exact ⟨hlen, hk⟩

/-- C5 witness: a seven-operation sequence on a `max_size = 2` cache
that overflows, reads, deletes and purges. -/
theorem C5_memory_store_invariant_witness :
    ((memRun (memEmpty Unit 2 none)
        [MemOp.set "a" (some ()) TtlArg.unset 0,
         MemOp.set "b" (some ()) TtlArg.unset 1,
         MemOp.set "c" (some ()) (TtlArg.ttl 1) 2,
         MemOp.get "a" 3,
         MemOp.del "b",
         MemOp.chk "c" 4,
         MemOp.keys 5]).cache.length : Int) ≤ 2
    ∧ keysOf (memRun (memEmpty Unit 2 none)
        [MemOp.set "a" (some ()) TtlArg.unset 0,
         MemOp.set "b" (some ()) TtlArg.unset 1,
         MemOp.set "c" (some ()) (TtlArg.ttl 1) 2,
         MemOp.get "a" 3,
         MemOp.del "b",
         MemOp.chk "c" 4,
         MemOp.keys 5]).cache
      = keysOf (memRun (memEmpty Unit 2 none)
        [MemOp.set "a" (some ()) TtlArg.unset 0,
         MemOp.set "b" (some ()) TtlArg.unset 1,
         MemOp.set "c" (some ()) (TtlArg.ttl 1) 2,
         MemOp.get "a" 3,
         MemOp.del "b",
         MemOp.chk "c" 4,
         MemOp.keys 5]).access :=
  C5_memory_store_invariant Unit 2 none _ (by decide)

end PyCache
